import Mathlib

/-!
Verification of the pymlocate binary-database reader.

The Python source (pymlocate.py) is shallowly embedded here:
byte streams are lists of naturals, fallible reads return `Except PyErr`,
and the unbounded `while` loops of the source are given explicit fuel
(always instantiated at call sites with more fuel than the loop can use,
since every iteration consumes at least one byte of the stream).
The external text codecs (Python's `bytes.decode` for charsets other than
UTF-8, the optional `chardet` detector, and `str(bytes)`) are parameters,
collected in a `Codec` structure; the UTF-8 and windows-1252 validity
checks used by `detect_encoding` are modelled concretely.
-/

set_option maxHeartbeats 1000000

namespace Pymlocate

/-- Errors a run of the Python code can end in: `struct.error` on a short
read, `IndexError` on a tuple or list index out of range, `NameError` when
the absent `chardet` module is referenced, `RuntimeError` for the explicit
raise in `read_file_entry`, `UnicodeDecodeError`, `sys.exit(code)`, and
`fuelOut` for exhausted fuel (never reached with the fuel the wrappers pass). -/
inductive PyErr where
  | structError
  | indexError
  | nameError
  | runtimeError
  | unicodeError
  | sysExit (code : Nat)
  | fuelOut
deriving DecidableEq

/-- External text facilities used by the source: availability and result of
the optional `chardet.detect` statistical detector, `bytes.decode` for
charsets other than UTF-8, and Python's `str` applied to a bytes object. -/
structure Codec where
  chardetAvail : Bool
  chardet : List Nat → Option String
  decodeOther : String → List Nat → String
  strRepr : List Nat → String

/-- UTF-8 continuation byte test (0x80-0xBF). -/
def isCont (b : Nat) : Bool := 128 ≤ b && b ≤ 191

/-- Strict UTF-8 decoding of a byte list, as performed by Python's
`bytes.decode("UTF-8")`: rejects overlong forms, surrogates and
out-of-range code points. Returns `none` exactly when Python raises
`UnicodeDecodeError`. -/
def utf8DecodeList : List Nat → Option (List Char)
  | [] => some []
  | b0 :: r =>
    if b0 ≤ 127 then
      (utf8DecodeList r).map (fun cs => Char.ofNat b0 :: cs)
    else if 194 ≤ b0 && b0 ≤ 223 then
      match r with
      | b1 :: r2 =>
        if isCont b1 then
          (utf8DecodeList r2).map (fun cs => Char.ofNat ((b0 - 192) * 64 + (b1 - 128)) :: cs)
        else none
      | _ => none
    else if 224 ≤ b0 && b0 ≤ 239 then
      match r with
      | b1 :: b2 :: r3 =>
        if (if b0 = 224 then 160 ≤ b1 && b1 ≤ 191
            else if b0 = 237 then 128 ≤ b1 && b1 ≤ 159
            else isCont b1) && isCont b2 then
          (utf8DecodeList r3).map (fun cs =>
            Char.ofNat ((b0 - 224) * 4096 + (b1 - 128) * 64 + (b2 - 128)) :: cs)
        else none
      | _ => none
    else if 240 ≤ b0 && b0 ≤ 244 then
      match r with
      | b1 :: b2 :: b3 :: r4 =>
        if (if b0 = 240 then 144 ≤ b1 && b1 ≤ 191
            else if b0 = 244 then 128 ≤ b1 && b1 ≤ 143
            else isCont b1) && isCont b2 && isCont b3 then
          (utf8DecodeList r4).map (fun cs =>
            Char.ofNat ((b0 - 240) * 262144 + (b1 - 128) * 4096 + (b2 - 128) * 64 + (b3 - 128)) :: cs)
        else none
      | _ => none
    else none

/-- `filename.decode("UTF-8")` succeeds. -/
def utf8Valid (b : List Nat) : Bool := (utf8DecodeList b).isSome

/-- The string produced by a successful strict UTF-8 decode. -/
def utf8Str (b : List Nat) : String :=
  match utf8DecodeList b with
  | some cs => String.mk cs
  | none => ""

/-- `filename.decode("windows-1252")` succeeds: every byte is below 256 and
none of the five code points cp1252 leaves undefined (0x81 0x8D 0x8F 0x90 0x9D). -/
def cp1252Valid (b : List Nat) : Bool :=
  b.all (fun c =>
    c < 256 && !(c == 129) && !(c == 141) && !(c == 143) && !(c == 144) && !(c == 157))

/-- Lines 34-53 of pymlocate.py: try strict UTF-8, then strict
windows-1252, then `chardet.detect(filename)["encoding"]`. Referencing
`chardet` when the import failed raises `NameError`. -/
def detect_encoding (cd : Codec) (filename : List Nat) : Except PyErr (Option String) :=
  if utf8Valid filename then .ok (some "UTF-8")
  else if cp1252Valid filename then .ok (some "windows-1252")
  else if cd.chardetAvail then .ok (cd.chardet filename)
  else .error .nameError

/-- `bytebuf.decode(charset)`: concrete for UTF-8, delegated to the codec
parameter for every other charset name. -/
def pyDecode (cd : Codec) (cs : String) (b : List Nat) : String :=
  if cs = "UTF-8" then utf8Str b else cd.decodeOther cs b

/-- Big-endian unsigned value of a byte list (`unpack(">Q", ...)` on 8 bytes). -/
def beNat (bs : List Nat) : Nat := bs.foldl (fun a b => a * 256 + b) 0

/-- `unpack(">i", ...)`: signed big-endian 32-bit value of a 4-byte list. -/
def int32be (bs : List Nat) : Int :=
  if beNat bs < 2 ^ 31 then (beNat bs : Int) else (beNat bs : Int) - 2 ^ 32

/-- `unpack("c", f.read(1))`: one byte, `struct.error` at end of stream. -/
def readByte : List Nat → Except PyErr (Nat × List Nat)
  | [] => .error .structError
  | b :: r => .ok (b, r)

/-- `unpack(format, f.read(n))` for a fixed-width field: `struct.error`
when fewer than `n` bytes remain. -/
def readBytes (n : Nat) (s : List Nat) : Except PyErr (List Nat × List Nat) :=
  if n ≤ s.length then .ok (s.take n, s.drop n) else .error .structError

/-- The read loop of `zts` (lines 108-114): bytes up to the NUL, the count
of bytes read including the terminator, and the remaining stream. -/
def ztsLoop : List Nat → Except PyErr (List Nat × Nat × List Nat)
  | [] => .error .structError
  | c :: r =>
    if c = 0 then .ok ([], 1, r)
    else
      match ztsLoop r with
      | .ok (buf, l, rest) => .ok (c :: buf, l + 1, rest)
      | .error e => .error e

/-- The tuple `zts` returns: a 2-tuple `(text, count)` when the buffer was
empty or no charset was detected, a 3-tuple `(text, count, charset)`
otherwise. Indexing element 2 of a 2-tuple is an `IndexError`. -/
inductive ZtsRes where
  | two (text : String) (count : Nat)
  | three (text : String) (count : Nat) (charset : String)
deriving DecidableEq

/-- Element 0 of the tuple `zts` returned. -/
def ZtsRes.idx0 : ZtsRes → String
  | .two t _ => t
  | .three t _ _ => t

/-- Element 1 of the tuple `zts` returned. -/
def ZtsRes.idx1 : ZtsRes → Nat
  | .two _ l => l
  | .three _ l _ => l

/-- Element 2 of the tuple `zts` returned; out of range on a 2-tuple. -/
def ZtsRes.idx2 : ZtsRes → Except PyErr String
  | .two _ _ => .error .indexError
  | .three _ _ cs => .ok cs

/-- Lines 99-122: read one zero-terminated string. -/
def zts (cd : Codec) (s : List Nat) : Except PyErr (ZtsRes × List Nat) := do
  let (buf, l, rest) ← ztsLoop s
  if buf = [] then
    return (ZtsRes.two "" l, rest)
  else do
    let charset ← detect_encoding cd buf
    match charset with
    | none => return (ZtsRes.two (cd.strRepr buf) l, rest)
    | some cs => return (ZtsRes.three (pyDecode cd cs buf) l cs, rest)

/-- `c.decode("UTF-8")` for the single discriminator byte of a
configuration-list entry: strict UTF-8 rejects any lone byte above 0x7F. -/
def byteDecodeUtf8 (c : Nat) : Except PyErr String :=
  if c ≤ 127 then .ok (String.mk [Char.ofNat c]) else .error .unicodeError

/-- The loop of `zts_list` (lines 124-142), fueled: read a discriminator
byte; NUL ends the list (count 1), otherwise the byte is the first
character of an entry completed by `zts`, and the count accumulates
`s[1] + 1` per iteration. -/
def ztsListLoopF (cd : Codec) : Nat → List Nat → Except PyErr (List String × Nat × List Nat)
  | 0, _ => .error .fuelOut
  | fuel + 1, s =>
    match s with
    | [] => .error .structError
    | c :: r =>
      if c = 0 then .ok ([], 1, r)
      else do
        let (res, r2) ← zts cd r
        let e ← byteDecodeUtf8 c
        let (lst, l2, r3) ← ztsListLoopF cd fuel r2
        return ((e ++ res.idx0) :: lst, res.idx1 + 1 + l2, r3)

/-- Lines 124-142: read a list of zero-terminated strings. The fuel passed
exceeds the number of iterations, since each iteration consumes bytes. -/
def zts_list (cd : Codec) (s : List Nat) : Except PyErr (List String × Nat × List Nat) :=
  ztsListLoopF cd (s.length + 1) s

/-- The result records of the reader, keeping the source's field names.
`filename` and `charset` are `Option` because the Python constructor is
called with `None` for the `dirterm` sentinel. -/
structure LocateDBSubEntry where
  entry_type : String
  filename : Option String
  charset : Option String
deriving DecidableEq

/-- Directory record: name, children, seconds, nanoseconds (signed). -/
structure LocateDBEntry where
  dirname : String
  subentries : List LocateDBSubEntry
  time_1 : Nat
  time_2 : Int
deriving DecidableEq

/-- Lines 144-166: read one sub-entry. For types 0 and 1 the charset is
`res[2]`, an `IndexError` whenever `zts` produced a 2-tuple. -/
def read_file_entry (cd : Codec) (s : List Nat) : Except PyErr (LocateDBSubEntry × List Nat) := do
  let (typef, r) ← readByte s
  if typef = 0 then do
    let (res, r2) ← zts cd r
    let cs ← res.idx2
    return (⟨"file", some res.idx0, some cs⟩, r2)
  else if typef = 1 then do
    let (res, r2) ← zts cd r
    let cs ← res.idx2
    return (⟨"subdir", some res.idx0, some cs⟩, r2)
  else if typef = 2 then
    return (⟨"dirterm", none, none⟩, r)
  else
    .error .runtimeError

/-- The sub-entry loop of `read_content_entry` (lines 177-180), fueled:
read sub-entries until the `dirterm` sentinel, which is not appended. -/
def contentLoopF (cd : Codec) : Nat → List Nat → Except PyErr (List LocateDBSubEntry × List Nat)
  | 0, _ => .error .fuelOut
  | fuel + 1, s => do
    let (e, r) ← read_file_entry cd s
    if e.entry_type = "dirterm" then
      return ([], r)
    else do
      let (es, r2) ← contentLoopF cd fuel r
      return (e :: es, r2)

/-- Lines 168-181: read one directory entry: 8-byte seconds, 4-byte signed
nanoseconds, 4 padding bytes, NUL-terminated path, then children up to the
`dirterm` sentinel. -/
def read_content_entry (cd : Codec) (s : List Nat) : Except PyErr (LocateDBEntry × List Nat) := do
  let (t1b, s1) ← readBytes 8 s
  let (t2b, s2) ← readBytes 4 s1
  let (_, s3) ← readBytes 4 s2
  let (pres, s4) ← zts cd s3
  let (pcontents, s5) ← contentLoopF cd (s4.length + 1) s4
  return (⟨pres.idx0, pcontents, beNat t1b, int32be t2b⟩, s5)

/-- The driver loop of lines 265-270, fueled: `read_content_entry` until
the cursor reaches the end of the file. -/
def seqLoopF (cd : Codec) : Nat → List Nat → Except PyErr (List LocateDBEntry)
  | 0, _ => .error .fuelOut
  | fuel + 1, s =>
    if s = [] then .ok []
    else do
      let (e, r) ← read_content_entry cd s
      let es ← seqLoopF cd fuel r
      return (e :: es)

/-- The sequential strategy: `read_content_entry` driven to end-of-file
(lines 265-270 of `open_locate_db`). -/
def sequential_reader (cd : Codec) (s : List Nat) : Except PyErr (List LocateDBEntry) :=
  seqLoopF cd (s.length + 1) s

/-- Python's `buf.split(sep)` for a one-byte separator: every maximal
separator-free run, empty runs included; `[[]]` on the empty buffer. -/
def pySplit (sep : Nat) : List Nat → List (List Nat)
  | [] => [[]]
  | b :: r =>
    if b = sep then [] :: pySplit sep r
    else
      match pySplit sep r with
      | [] => [[b]]
      | g :: gs => (b :: g) :: gs

/-- The reassembly guard of `fast_reader` (lines 207-209): while the
fragment is shorter than 16 bytes, append the next fragment, re-inserting
the 0x02 byte the split removed; `IndexError` when no fragment remains. -/
def reassemble : List (List Nat) → List Nat → Except PyErr (List Nat × List (List Nat))
  | [], dt => if dt.length < 16 then .error .indexError else .ok (dt, [])
  | f :: fs, dt =>
    if dt.length < 16 then reassemble fs (dt ++ 2 :: f) else .ok (dt, f :: fs)

/-- Lines 231-236: decode one recovered name and build the sub-entry; the
charset stored is exactly what `detect_encoding` returned. -/
def mkSub (cd : Codec) (stype : String) (bytebuf : List Nat) : Except PyErr LocateDBSubEntry := do
  let cso ← detect_encoding cd bytebuf
  match cso with
  | none => return ⟨stype, some (cd.strRepr bytebuf), none⟩
  | some cs => return ⟨stype, some (pyDecode cd cs bytebuf), some cs⟩

/-- The field walk of `fast_reader` (lines 220-236): an empty field starts
a file entry whose name is the following field (`IndexError` when absent);
a non-empty field is a subdirectory whose name drops the leading
discriminator byte. -/
def fieldsLoop (cd : Codec) : List (List Nat) → Except PyErr (List LocateDBSubEntry)
  | [] => .ok []
  | f :: fs =>
    if f = [] then
      match fs with
      | [] => .error .indexError
      | name :: fs2 => do
        let e ← mkSub cd "file" name
        let es ← fieldsLoop cd fs2
        return (e :: es)
    else do
      let e ← mkSub cd "subdir" f.tail
      let es ← fieldsLoop cd fs
      return (e :: es)

/-- Lines 210-237: parse one reassembled fragment: the first 16 bytes are
seconds, nanoseconds and padding; the rest is split on NUL, the first
field is the directory path (`IndexError` when there is none), the
remaining fields are walked as sub-entries. -/
def parseFragment (cd : Codec) (dt : List Nat) : Except PyErr LocateDBEntry := do
  let time_1 := beNat (dt.take 8)
  let time_2 := int32be ((dt.drop 8).take 4)
  let filesplit := (pySplit 0 (dt.drop 16)).dropLast
  match filesplit with
  | [] => .error .indexError
  | bpname :: fields => do
    let cso ← detect_encoding cd bpname
    let pname := match cso with
      | none => cd.strRepr bpname
      | some cs => pyDecode cd cs bpname
    let pcontents ← fieldsLoop cd fields
    return ⟨pname, pcontents, time_1, time_2⟩

/-- The fragment loop of `fast_reader` (lines 204-238), fueled: reassemble
short fragments, parse, continue with the fragments not consumed. -/
def fastLoopF (cd : Codec) : Nat → List (List Nat) → Except PyErr (List LocateDBEntry)
  | 0, _ => .error .fuelOut
  | _ + 1, [] => .ok []
  | fuel + 1, dt :: rest => do
    let (dt2, rest2) ← reassemble rest dt
    let e ← parseFragment cd dt2
    let es ← fastLoopF cd fuel rest2
    return (e :: es)

/-- Lines 183-239: the bulk strategy: read the remaining stream whole,
split it on 0x02, drop the trailing fragment, and parse each fragment. -/
def fast_reader (cd : Codec) (s : List Nat) : Except PyErr (List LocateDBEntry) :=
  let dtsplit := (pySplit 2 s).dropLast
  fastLoopF cd (dtsplit.length + 1) dtsplit

/-- The fixed magic sequence of bytes 0..7. -/
def magicBytes : List Nat := [0, 109, 108, 111, 99, 97, 116, 101]

/-- Lines 249-253: validate the magic (printing and `sys.exit(1)` on
mismatch) and read the configuration-block length with `unpack(">i")`. -/
def headerCblock (s : List Nat) : Except PyErr (Int × List Nat) := do
  let (mcode, s1) ← readBytes 8 s
  if mcode = magicBytes then do
    let (cb, s2) ← readBytes 4 s1
    return (int32be cb, s2)
  else
    .error (.sysExit 1)

/-- The configuration loop of lines 258-263, fueled: while the byte total
is below `cblocksize`, read one terminated-string list and accumulate its
strings and its byte count. There is no overrun check. -/
def configLoopF (cd : Codec) : Nat → Int → Nat → List Nat → Except PyErr (List String × Nat × List Nat)
  | 0, _, _, _ => .error .fuelOut
  | fuel + 1, cb, l, s =>
    if (l : Int) < cb then do
      let (cfg, ll, r) ← zts_list cd s
      let (cfgs, l2, r2) ← configLoopF cd fuel cb (l + ll) r
      return (cfg ++ cfgs, l2, r2)
    else .ok ([], l, s)

/-- Lines 241-272: the loader: header, root path, configuration block,
then dispatch to the sequential or the bulk strategy. -/
def open_locate_db (cd : Codec) (s : List Nat) (fast_mode : Bool) : Except PyErr (List LocateDBEntry) := do
  let (cblocksize, s1) ← headerCblock s
  let (_, s2) ← readByte s1
  let (_, s3) ← readByte s2
  let (_, s4) ← readBytes 2 s3
  let (_, s5) ← zts cd s4
  let (_, _, s6) ← configLoopF cd (s5.length + 1) cblocksize 0 s5
  if fast_mode then fast_reader cd s6
  else sequential_reader cd s6

/-! ### Structured databases and their serialization

A structured description of a directory entry, used to state the
agreement of the two strategies over well-formed inputs: `encodeEntry`
lays a `DirSpec` out exactly as the format of mlocate.db(5) prescribes. -/

/-- Structured form of one directory entry: raw timestamp/padding bytes,
path bytes, and children given as (is-file, name bytes). -/
structure DirSpec where
  t1 : List Nat
  t2 : List Nat
  pad : List Nat
  path : List Nat
  children : List (Bool × List Nat)

/-- Serialized child records: tag byte (0 file, 1 subdirectory), then the
NUL-terminated name. -/
def childBytes : List (Bool × List Nat) → List Nat
  | [] => []
  | (b, n) :: cs => (if b then 0 else 1) :: (n ++ 0 :: childBytes cs)

/-- One directory entry without its trailing 0x02 terminator. -/
def entryContent (d : DirSpec) : List Nat :=
  d.t1 ++ (d.t2 ++ (d.pad ++ (d.path ++ 0 :: childBytes d.children)))

/-- One serialized directory entry. -/
def encodeEntry (d : DirSpec) : List Nat := entryContent d ++ [2]

/-- The serialized directory-entry region of a database. -/
def encodeDb : List DirSpec → List Nat
  | [] => []
  | d :: ds => encodeEntry d ++ encodeDb ds

/-- `detect_encoding` does not raise on these bytes. -/
def detectOkB (cd : Codec) (b : List Nat) : Bool :=
  match detect_encoding cd b with
  | .ok _ => true
  | .error _ => false

/-- `detect_encoding` returns an actual charset on these bytes. -/
def detectSomeB (cd : Codec) (b : List Nat) : Bool :=
  match detect_encoding cd b with
  | .ok (some _) => true
  | _ => false

/-- The charset `detect_encoding` settles on, `none` when undetermined. -/
def resolvedCharset (cd : Codec) (b : List Nat) : Option String :=
  match detect_encoding cd b with
  | .ok o => o
  | .error _ => none

/-- The decoded text of a byte run, following the source's policy: decode
with the resolved charset, or fall back to `str(bytes)`. -/
def decodedStr (cd : Codec) (b : List Nat) : String :=
  match resolvedCharset cd b with
  | none => cd.strRepr b
  | some cs => pyDecode cd cs b

/-- The sub-entry either strategy produces for a well-formed child. -/
def decodedSub (cd : Codec) (c : Bool × List Nat) : LocateDBSubEntry :=
  ⟨if c.1 then "file" else "subdir", some (decodedStr cd c.2), resolvedCharset cd c.2⟩

/-- The directory entry either strategy produces for a well-formed `DirSpec`. -/
def decodedEntry (cd : Codec) (d : DirSpec) : LocateDBEntry :=
  ⟨decodedStr cd d.path, d.children.map (decodedSub cd), beNat d.t1, int32be d.t2⟩

/-- A well-formed child: non-empty name, no NUL and no 0x02 byte in the
name, and the name resolves to a charset. -/
def ValidChild (cd : Codec) (c : Bool × List Nat) : Prop :=
  c.2 ≠ [] ∧ 0 ∉ c.2 ∧ 2 ∉ c.2 ∧ detectSomeB cd c.2 = true

/-- A well-formed directory entry: fixed-width fields of the right sizes,
no NUL and no 0x02 byte in the path, a path on which `detect_encoding`
does not raise, and well-formed children. The timestamp and padding bytes
are unconstrained: they may contain 0x02. -/
def ValidDir (cd : Codec) (d : DirSpec) : Prop :=
  d.t1.length = 8 ∧ d.t2.length = 4 ∧ d.pad.length = 4 ∧
  0 ∉ d.path ∧ 2 ∉ d.path ∧ detectOkB cd d.path = true ∧
  ∀ c ∈ d.children, ValidChild cd c

/-- A well-formed database body. -/
def ValidDb (cd : Codec) (ds : List DirSpec) : Prop := ∀ d ∈ ds, ValidDir cd d

instance (cd : Codec) (c : Bool × List Nat) : Decidable (ValidChild cd c) := by
  unfold ValidChild
  exact inferInstance

instance (cd : Codec) (d : DirSpec) : Decidable (ValidDir cd d) := by
  unfold ValidDir
  exact inferInstance

instance (cd : Codec) (ds : List DirSpec) : Decidable (ValidDb cd ds) := by
  unfold ValidDb
  exact inferInstance

/-! ### Concrete inputs used by some claims -/

/-- A codec with the statistical detector available but never conclusive. -/
def cd0 : Codec := ⟨true, fun _ => none, fun _ _ => "", fun _ => ""⟩

/-- A codec modelling the `chardet` import having failed. -/
def cdNo : Codec := ⟨false, fun _ => none, fun _ _ => "", fun _ => ""⟩

/-- The hand-built minimal database of test scenario 6: magic, cblocksize
1, version 0, visibility 0, padding, root "/", one empty configuration
list, then one entry for "/tmp" at time (0, 0) with file child "a.txt"
and subdirectory child "sub". -/
def c2stream : List Nat :=
  magicBytes ++ [0, 0, 0, 1] ++ [0] ++ [0] ++ [0, 0] ++ [47, 0] ++ [0] ++
  [0, 0, 0, 0, 0, 0, 0, 0] ++ [0, 0, 0, 0] ++ [0, 0, 0, 0] ++ [47, 116, 109, 112, 0] ++
  [0, 97, 46, 116, 120, 116, 0] ++ [1, 115, 117, 98, 0] ++ [2]

/-- The entry the minimal database decodes to. -/
def c2entry : LocateDBEntry :=
  ⟨"/tmp", [⟨"file", some "a.txt", some "UTF-8"⟩, ⟨"subdir", some "sub", some "UTF-8"⟩], 0, 0⟩

/-- A database declaring `cblocksize = 1` whose single configuration list
occupies 3 bytes, overrunning the declared block; the directory region
holds one childless entry for "/tmp". -/
def c3stream : List Nat :=
  magicBytes ++ [0, 0, 0, 1] ++ [0] ++ [0] ++ [0, 0] ++ [47, 0] ++ [97, 0, 0] ++
  [0, 0, 0, 0, 0, 0, 0, 0] ++ [0, 0, 0, 0] ++ [0, 0, 0, 0] ++ [47, 116, 109, 112, 0] ++ [2]

/-- A directory-entry region with one entry for "/tmp" whose single file
child is named `a\x02b`: the 0x02 collision sits inside the filename, at
fragment offset 23 ≥ 16. -/
def c6stream : List Nat :=
  [0, 0, 0, 0, 0, 0, 0, 0] ++ [0, 0, 0, 0] ++ [0, 0, 0, 0] ++ [47, 116, 109, 112, 0] ++
  [0, 97, 2, 98, 0] ++ [2]

/-- The entry the sequential strategy reads from `c6stream`. -/
def c6entry : LocateDBEntry :=
  ⟨"/tmp", [⟨"file", some (String.mk [Char.ofNat 97, Char.ofNat 2, Char.ofNat 98]),
    some "UTF-8"⟩], 0, 0⟩

/-- A directory-entry region whose single entry has a 0x02 byte inside its
timestamp (seconds = 2), so the collision sits at fragment offset 7 < 16. -/
def c6good : List Nat :=
  [0, 0, 0, 0, 0, 0, 0, 2] ++ [0, 0, 0, 0] ++ [0, 0, 0, 0] ++ [47, 116, 109, 112, 0] ++
  [0, 97, 46, 116, 120, 116, 0] ++ [2]

/-- A two-child directory entry used as a concrete well-formed database. -/
def c1spec : DirSpec :=
  ⟨[0, 0, 0, 0, 0, 0, 0, 1], [0, 0, 0, 2], [0, 0, 0, 0], [47, 104, 111, 109, 101],
   [(true, [97, 46, 116, 120, 116]), (false, [115, 117, 98])]⟩

/-- The tuple `zts` returns when reading the run `p` up to a NUL. -/
def ztsResOf (cd : Codec) (p : List Nat) : ZtsRes :=
  if p = [] then .two "" 1
  else
    match resolvedCharset cd p with
    | none => .two (cd.strRepr p) (p.length + 1)
    | some cs => .three (pyDecode cd cs p) (p.length + 1) cs

/-- A list of NUL-terminated strings followed by the outer NUL terminator. -/
def encTermList : List (List Nat) → List Nat
  | [] => [0]
  | p :: ps => p ++ 0 :: encTermList ps

/-- The NUL-split fields the serialized children of an entry produce:
a file contributes an empty field and its name, a subdirectory one field
carrying its discriminator byte. -/
def fieldsOf : List (Bool × List Nat) → List (List Nat)
  | [] => []
  | (b, n) :: cs => (if b then [[], n] else [1 :: n]) ++ fieldsOf cs

/-- The 0x02-split fragments of a serialized database, grouped per entry. -/
def fragsOf : List DirSpec → List (List Nat)
  | [] => []
  | d :: ds => pySplit 2 (entryContent d) ++ fragsOf ds

end Pymlocate

/-! ## Theorems -/

namespace Pymlocate

/-! ### Reader composition lemmas -/

@[simp] theorem ok_bind {α β : Type} (a : α) (f : α → Except PyErr β) :
    (Except.ok a >>= f) = f a := rfl

@[simp] theorem error_bind {α β : Type} (e : PyErr) (f : α → Except PyErr β) :
    ((Except.error e : Except PyErr α) >>= f) = .error e := rfl

@[simp] theorem pure_eq_ok {α : Type} (a : α) : (pure a : Except PyErr α) = .ok a := rfl

theorem readBytes_append {n : Nat} (u v : List Nat) (h : u.length = n) :
    readBytes n (u ++ v) = .ok (u, v) := by
  subst h
  simp [readBytes, List.take_left, List.drop_left]

theorem ztsLoop_append (p r : List Nat) (h : 0 ∉ p) :
    ztsLoop (p ++ 0 :: r) = .ok (p, p.length + 1, r) := by
  induction p with
  | nil => simp [ztsLoop]
  | cons a p ih =>
    have ha : ¬(a = 0) := by
      intro e
      exact h (by simp [e])
    have h' : 0 ∉ p := fun hm => h (List.mem_cons_of_mem a hm)
    simp [ztsLoop, ha, ih h']

theorem detect_ok_of_avail (cd : Codec) (b : List Nat) (hav : cd.chardetAvail = true) :
    detect_encoding cd b = .ok (resolvedCharset cd b) := by
  simp only [detect_encoding, resolvedCharset, hav]
  by_cases h1 : utf8Valid b <;> by_cases h2 : cp1252Valid b <;> simp [h1, h2]

theorem detect_ok_of_detectOkB (cd : Codec) (b : List Nat) (hok : detectOkB cd b = true) :
    detect_encoding cd b = .ok (resolvedCharset cd b) := by
  revert hok
  simp only [detectOkB, resolvedCharset]
  cases detect_encoding cd b <;> simp

theorem detectOkB_of_detectSomeB (cd : Codec) (b : List Nat) (h : detectSomeB cd b = true) :
    detectOkB cd b = true := by
  revert h
  simp only [detectSomeB, detectOkB]
  cases h : detect_encoding cd b with
  | ok o => cases o <;> simp
  | error e => simp

theorem resolvedCharset_some_of_detectSomeB (cd : Codec) (b : List Nat)
    (h : detectSomeB cd b = true) : ∃ cs, resolvedCharset cd b = some cs := by
  revert h
  simp only [detectSomeB, resolvedCharset]
  cases h : detect_encoding cd b with
  | ok o => cases o <;> simp
  | error e => simp

theorem zts_append (cd : Codec) (p r : List Nat) (h0 : 0 ∉ p)
    (hok : detectOkB cd p = true) :
    zts cd (p ++ 0 :: r) = .ok (ztsResOf cd p, r) := by
  simp only [zts, ztsLoop_append p r h0, ok_bind]
  by_cases hp : p = []
  · simp [hp, ztsResOf]
  · simp only [ztsResOf, hp, if_neg hp, if_false, detect_ok_of_detectOkB cd p hok, ok_bind]
    cases resolvedCharset cd p <;> simp

theorem zts_cons_nul (cd : Codec) (r : List Nat) :
    zts cd (0 :: r) = .ok (.two "" 1, r) := rfl

theorem ztsResOf_idx0 (cd : Codec) (p : List Nat) :
    (ztsResOf cd p).idx0 = decodedStr cd p := by
  simp only [ztsResOf, decodedStr]
  by_cases hp : p = []
  · subst hp
    rfl
  · cases resolvedCharset cd p <;> simp [hp, ZtsRes.idx0]

theorem ztsResOf_idx1 (cd : Codec) (p : List Nat) :
    (ztsResOf cd p).idx1 = p.length + 1 := by
  simp only [ztsResOf]
  by_cases hp : p = []
  · subst hp
    rfl
  · cases resolvedCharset cd p <;> simp [hp, ZtsRes.idx1]

/-! ### The sequential strategy on serialized databases -/

theorem read_file_entry_child (cd : Codec) (b : Bool) (n r : List Nat)
    (h : ValidChild cd (b, n)) :
    read_file_entry cd ((if b then 0 else 1) :: (n ++ 0 :: r)) =
      .ok (decodedSub cd (b, n), r) := by
  obtain ⟨hne, h0, _, hsome⟩ := h
  obtain ⟨cs, hcs⟩ := resolvedCharset_some_of_detectSomeB cd n hsome
  have hok := detectOkB_of_detectSomeB cd n hsome
  have hz := zts_append cd n r h0 hok
  have hres : ztsResOf cd n = .three (pyDecode cd cs n) (n.length + 1) cs := by
    simp [ztsResOf, hne, hcs]
  have hstr : decodedStr cd n = pyDecode cd cs n := by
    simp [decodedStr, hcs]
  cases b <;>
    simp [read_file_entry, readByte, hz, hres, decodedSub, ZtsRes.idx2, ZtsRes.idx0, hstr, hcs]

theorem read_file_entry_term (cd : Codec) (r : List Nat) :
    read_file_entry cd (2 :: r) = .ok (⟨"dirterm", none, none⟩, r) := rfl

theorem decodedSub_entry_type (cd : Codec) (c : Bool × List Nat) :
    (decodedSub cd c).entry_type = if c.1 then "file" else "subdir" := rfl

theorem childBytes_length_ge (cs : List (Bool × List Nat)) :
    cs.length ≤ (childBytes cs).length := by
  induction cs with
  | nil => simp [childBytes]
  | cons c cs ih =>
    obtain ⟨b, n⟩ := c
    simp only [childBytes, List.length_cons, List.length_append]
    omega

theorem contentLoopF_children (cd : Codec) (cs' : List (Bool × List Nat)) :
    ∀ fuel r, (∀ c ∈ cs', ValidChild cd c) → cs'.length + 1 ≤ fuel →
    contentLoopF cd fuel (childBytes cs' ++ 2 :: r) = .ok (cs'.map (decodedSub cd), r) := by
  induction cs' with
  | nil =>
    intro fuel r _ hf
    cases fuel with
    | zero => omega
    | succ f => simp [contentLoopF, childBytes, read_file_entry_term]
  | cons c cs ih =>
    intro fuel r hv hf
    cases fuel with
    | zero => omega
    | succ f =>
      obtain ⟨b, n⟩ := c
      have hvc : ValidChild cd (b, n) := hv _ (by simp)
      have hs : childBytes ((b, n) :: cs) ++ 2 :: r =
          (if b then 0 else 1) :: (n ++ 0 :: (childBytes cs ++ 2 :: r)) := by
        simp [childBytes, List.cons_append, List.append_assoc]
      rw [hs]
      have htype : ¬((decodedSub cd (b, n)).entry_type = "dirterm") := by
        cases b <;> simp [decodedSub]
      simp only [contentLoopF, read_file_entry_child cd b n _ hvc, ok_bind, if_neg htype]
      rw [ih f _ (fun c' hc' => hv c' (by simp [hc']))
        (by simp only [List.length_cons] at hf; omega)]
      simp

theorem read_content_entry_enc (cd : Codec) (d : DirSpec) (r : List Nat)
    (h : ValidDir cd d) :
    read_content_entry cd (encodeEntry d ++ r) = .ok (decodedEntry cd d, r) := by
  obtain ⟨h1, h2, h3, hp0, _, hpok, hch⟩ := h
  have hs : encodeEntry d ++ r =
      d.t1 ++ (d.t2 ++ (d.pad ++ (d.path ++ 0 :: (childBytes d.children ++ 2 :: r)))) := by
    simp [encodeEntry, entryContent, List.append_assoc]
  rw [hs]
  have hfuel : d.children.length + 1 ≤ (childBytes d.children ++ 2 :: r).length + 1 := by
    have := childBytes_length_ge d.children
    simp only [List.length_append, List.length_cons]
    omega
  simp only [read_content_entry, readBytes_append d.t1 _ h1, ok_bind,
    readBytes_append d.t2 _ h2, readBytes_append d.pad _ h3,
    zts_append cd d.path _ hp0 hpok,
    contentLoopF_children cd d.children _ _ hch hfuel]
  simp [decodedEntry, ztsResOf_idx0]

theorem encodeEntry_ne_nil (d : DirSpec) : encodeEntry d ≠ [] := by
  simp [encodeEntry]

theorem encodeDb_length_ge (ds : List DirSpec) : ds.length ≤ (encodeDb ds).length := by
  induction ds with
  | nil => simp [encodeDb]
  | cons d ds ih =>
    have : 1 ≤ (encodeEntry d).length := by
      cases he : encodeEntry d with
      | nil => exact absurd he (encodeEntry_ne_nil d)
      | cons a l => simp
    simp only [encodeDb, List.length_append, List.length_cons]
    omega

theorem seqLoopF_encodeDb (cd : Codec) (ds : List DirSpec) :
    ∀ fuel, ValidDb cd ds → ds.length + 1 ≤ fuel →
    seqLoopF cd fuel (encodeDb ds) = .ok (ds.map (decodedEntry cd)) := by
  induction ds with
  | nil =>
    intro fuel _ hf
    cases fuel with
    | zero => omega
    | succ f => simp [seqLoopF, encodeDb]
  | cons d ds ih =>
    intro fuel hv hf
    cases fuel with
    | zero => omega
    | succ f =>
      have hne : ¬(encodeEntry d ++ encodeDb ds = []) := by
        simp [encodeEntry]
      simp only [encodeDb, seqLoopF, if_neg hne,
        read_content_entry_enc cd d _ (hv d (by simp)), ok_bind]
      rw [ih f (fun d' hd' => hv d' (by simp [hd']))
        (by simp only [List.length_cons] at hf; omega)]
      simp

theorem sequential_reader_encodeDb (cd : Codec) (ds : List DirSpec) (hv : ValidDb cd ds) :
    sequential_reader cd (encodeDb ds) = .ok (ds.map (decodedEntry cd)) := by
  apply seqLoopF_encodeDb cd ds _ hv
  have := encodeDb_length_ge ds
  omega

/-! ### Splitting and reassembly lemmas for the bulk strategy -/

theorem pySplit_ne_nil (sep : Nat) (l : List Nat) : pySplit sep l ≠ [] := by
  cases l with
  | nil => simp [pySplit]
  | cons b r =>
    simp only [pySplit]
    by_cases hb : b = sep
    · simp [hb]
    · simp only [if_neg hb]
      cases pySplit sep r <;> simp

theorem pySplit_sepFree (sep : Nat) (l : List Nat) (h : sep ∉ l) : pySplit sep l = [l] := by
  induction l with
  | nil => rfl
  | cons b r ih =>
    have hb : ¬(b = sep) := fun e => h (by simp [e])
    have h' : sep ∉ r := fun hm => h (List.mem_cons_of_mem _ hm)
    simp [pySplit, hb, ih h']

theorem pySplit_append (sep : Nat) (A B : List Nat) :
    pySplit sep (A ++ sep :: B) = pySplit sep A ++ pySplit sep B := by
  induction A with
  | nil => simp [pySplit]
  | cons b A ih =>
    by_cases hb : b = sep
    · subst hb
      simp [pySplit, ih]
    · simp only [List.cons_append, pySplit, if_neg hb, List.append_eq]
      rw [ih]
      cases hA : pySplit sep A with
      | nil => exact absurd hA (pySplit_ne_nil sep A)
      | cons g gs => simp

theorem exists_first_sep (sep : Nat) (l : List Nat) (h : sep ∈ l) :
    ∃ A B, l = A ++ sep :: B ∧ sep ∉ A := by
  induction l with
  | nil => simp at h
  | cons b r ih =>
    by_cases hb : b = sep
    · subst hb
      exact ⟨[], r, rfl, by simp⟩
    · have h' : sep ∈ r := by
        rcases List.mem_cons.mp h with e | m
        · exact absurd e.symm hb
        · exact m
      obtain ⟨A, B, he, hA⟩ := ih h'
      refine ⟨b :: A, B, by simp [he], ?_⟩
      intro hm
      rcases List.mem_cons.mp hm with e | m
      · exact hb e.symm
      · exact hA m

theorem first_lt_of_not_mem_drop (k : Nat) (C X Y : List Nat)
    (ht : (2 : Nat) ∉ C.drop k) (he : C = X ++ 2 :: Y) : X.length < k := by
  by_contra hle
  push_neg at hle
  apply ht
  rw [he, List.drop_append_of_le_length hle]
  exact List.mem_append_right _ (by simp)

theorem reassemble_long (frags : List (List Nat)) (dt : List Nat) (h : 16 ≤ dt.length) :
    reassemble frags dt = .ok (dt, frags) := by
  cases frags <;> simp [reassemble, Nat.not_lt.mpr h]

theorem reassemble_short_cons (f : List Nat) (fs : List (List Nat)) (dt : List Nat)
    (h : dt.length < 16) : reassemble (f :: fs) dt = reassemble fs (dt ++ 2 :: f) := by
  simp [reassemble, h]

theorem reassemble_spec_aux (n : Nat) : ∀ (C D : List Nat) (rest : List (List Nat)),
    C.length ≤ n →
    (∀ X Y, C = X ++ 2 :: Y → D.length + 1 + X.length < 16) →
    16 ≤ D.length + 1 + C.length →
    D.length < 16 →
    reassemble (pySplit 2 C ++ rest) D = .ok (D ++ 2 :: C, rest) := by
  induction n with
  | zero =>
    intro C D rest hn _ hlen hD
    have hC : C = [] := List.length_eq_zero.mp (Nat.le_zero.mp hn)
    subst hC
    have h1 : pySplit 2 ([] : List Nat) ++ rest = ([] : List Nat) :: rest := by
      simp [pySplit]
    rw [h1, reassemble_short_cons _ _ _ hD, reassemble_long]
    simp only [List.length_append, List.length_cons, List.length_nil] at hlen ⊢
    omega
  | succ m ih =>
    intro C D rest hn hdec hlen hD
    by_cases hmem : (2 : Nat) ∈ C
    · obtain ⟨A, B, he, hA⟩ := exists_first_sep 2 C hmem
      subst he
      rw [pySplit_append, pySplit_sepFree 2 A hA]
      have hAlen : D.length + 1 + A.length < 16 := hdec A B rfl
      have hstep : ([A] ++ pySplit 2 B) ++ rest = A :: (pySplit 2 B ++ rest) := by
        simp
      rw [hstep, reassemble_short_cons _ _ _ hD]
      have hlenB : B.length ≤ m := by
        have := List.length_append A (2 :: B)
        simp only [List.length_cons] at this
        omega
      have hrec := ih B (D ++ 2 :: A) rest hlenB
        (fun X Y hXY => by
          have := hdec (A ++ 2 :: X) Y (by simp [hXY, List.append_assoc])
          simp only [List.length_append, List.length_cons] at this ⊢
          omega)
        (by simp only [List.length_append, List.length_cons] at hlen ⊢; omega)
        (by simp only [List.length_append, List.length_cons]; omega)
      rw [hrec]
      simp [List.append_assoc]
    · rw [pySplit_sepFree 2 C hmem]
      have hstep : [C] ++ rest = C :: rest := by simp
      rw [hstep, reassemble_short_cons _ _ _ hD, reassemble_long]
      simp only [List.length_append, List.length_cons] at hlen ⊢
      omega

theorem reassemble_group (C : List Nat) (rest : List (List Nat)) (g : List Nat)
    (gs : List (List Nat)) (h16 : 16 ≤ C.length) (ht : (2 : Nat) ∉ C.drop 16)
    (hsplit : pySplit 2 C = g :: gs) :
    reassemble (gs ++ rest) g = .ok (C, rest) := by
  by_cases hmem : (2 : Nat) ∈ C
  · obtain ⟨A, B, he, hA⟩ := exists_first_sep 2 C hmem
    have hsA : pySplit 2 C = A :: pySplit 2 B := by
      rw [he, pySplit_append, pySplit_sepFree 2 A hA]
      simp
    obtain ⟨hg, hgs⟩ := List.cons.inj (hsA.symm.trans hsplit)
    rw [← hg, ← hgs]
    have hAlt : A.length < 16 := first_lt_of_not_mem_drop 16 C A B ht he
    have hlenC : C.length = A.length + 1 + B.length := by
      rw [he]
      simp only [List.length_append, List.length_cons]
      omega
    have hrec := reassemble_spec_aux B.length B A rest le_rfl
      (fun X Y hXY => by
        have hlt := first_lt_of_not_mem_drop 16 C (A ++ 2 :: X) Y ht
          (by rw [he, hXY]; simp [List.append_assoc])
        simp only [List.length_append, List.length_cons] at hlt ⊢
        omega)
      (by omega)
      hAlt
    rw [hrec, ← he]
  · rw [pySplit_sepFree 2 C hmem] at hsplit
    obtain ⟨hg, hgs⟩ := List.cons.inj hsplit.symm
    rw [hgs, hg, List.nil_append]
    exact reassemble_long rest C h16

/-! ### The bulk strategy on serialized databases -/

theorem mkSub_resolved (cd : Codec) (st : String) (n : List Nat) (ch : String)
    (hch : resolvedCharset cd n = some ch) (hok : detectOkB cd n = true) :
    mkSub cd st n = .ok ⟨st, some (pyDecode cd ch n), some ch⟩ := by
  simp [mkSub, detect_ok_of_detectOkB cd n hok, hch]

theorem fieldsLoop_cons_ne (cd : Codec) (f : List Nat) (fs : List (List Nat)) (h : ¬(f = [])) :
    fieldsLoop cd (f :: fs) = do
      let e ← mkSub cd "subdir" f.tail
      let es ← fieldsLoop cd fs
      return (e :: es) := by
  rw [fieldsLoop.eq_def]
  simp [h]

theorem fieldsLoop_nil_cons (cd : Codec) (name : List Nat) (fs2 : List (List Nat)) :
    fieldsLoop cd ([] :: name :: fs2) = do
      let e ← mkSub cd "file" name
      let es ← fieldsLoop cd fs2
      return (e :: es) := by
  rw [fieldsLoop.eq_def]
  simp

theorem fieldsLoop_fieldsOf (cd : Codec) (cs : List (Bool × List Nat))
    (hv : ∀ c ∈ cs, ValidChild cd c) :
    fieldsLoop cd (fieldsOf cs) = .ok (cs.map (decodedSub cd)) := by
  induction cs with
  | nil => rfl
  | cons c cs ih =>
    obtain ⟨b, n⟩ := c
    obtain ⟨hne, h0, h2, hsome⟩ := hv (b, n) (by simp)
    have hrec := ih (fun c' hc' => hv c' (by simp [hc']))
    obtain ⟨ch, hch⟩ := resolvedCharset_some_of_detectSomeB cd n hsome
    have hok := detectOkB_of_detectSomeB cd n hsome
    have hsub : decodedSub cd (b, n) =
        ⟨if b then "file" else "subdir", some (pyDecode cd ch n), some ch⟩ := by
      simp [decodedSub, decodedStr, hch]
    cases b
    · have hmk := mkSub_resolved cd "subdir" n ch hch hok
      have hflds : fieldsOf ((false, n) :: cs) = (1 :: n) :: fieldsOf cs := by
        simp [fieldsOf]
      rw [hflds, fieldsLoop_cons_ne cd (1 :: n) (fieldsOf cs) (by simp)]
      simp only [List.tail_cons, hmk, ok_bind, hrec]
      simp [hsub]
    · have hmk := mkSub_resolved cd "file" n ch hch hok
      have hflds : fieldsOf ((true, n) :: cs) = [] :: n :: fieldsOf cs := by
        simp [fieldsOf]
      rw [hflds, fieldsLoop_nil_cons cd n (fieldsOf cs)]
      simp only [hmk, ok_bind, hrec]
      simp [hsub]

theorem entryContent_eq (d : DirSpec) :
    entryContent d = (d.t1 ++ d.t2 ++ d.pad) ++ (d.path ++ 0 :: childBytes d.children) := by
  simp [entryContent, List.append_assoc]

theorem entryContent_take8 (d : DirSpec) (h1 : d.t1.length = 8) :
    (entryContent d).take 8 = d.t1 := by
  simp only [entryContent]
  rw [← h1, List.take_left]

theorem entryContent_drop8_take4 (d : DirSpec) (h1 : d.t1.length = 8)
    (h2 : d.t2.length = 4) : ((entryContent d).drop 8).take 4 = d.t2 := by
  simp only [entryContent]
  rw [← h1, List.drop_left, ← h2, List.take_left]

theorem entryContent_drop16 (d : DirSpec) (h1 : d.t1.length = 8) (h2 : d.t2.length = 4)
    (h3 : d.pad.length = 4) :
    (entryContent d).drop 16 = d.path ++ 0 :: childBytes d.children := by
  rw [entryContent_eq]
  have hl : (d.t1 ++ d.t2 ++ d.pad).length = 16 := by
    simp [List.length_append, h1, h2, h3]
  rw [← hl, List.drop_left]

theorem entryContent_len (d : DirSpec) (h1 : d.t1.length = 8) (h2 : d.t2.length = 4)
    (h3 : d.pad.length = 4) : 16 ≤ (entryContent d).length := by
  rw [entryContent_eq]
  simp only [List.length_append, List.length_cons, h1, h2, h3]
  omega

theorem two_not_mem_childBytes (cd : Codec) (cs : List (Bool × List Nat))
    (hv : ∀ c ∈ cs, ValidChild cd c) : (2 : Nat) ∉ childBytes cs := by
  induction cs with
  | nil => simp [childBytes]
  | cons c cs ih =>
    obtain ⟨b, n⟩ := c
    obtain ⟨_, _, h2, _⟩ := hv (b, n) (by simp)
    have hrec := ih (fun c' hc' => hv c' (by simp [hc']))
    intro hmem
    rcases List.mem_cons.mp hmem with e | m
    · cases b <;> simp at e
    · rcases List.mem_append.mp m with m1 | m2
      · exact h2 m1
      · rcases List.mem_cons.mp m2 with e0 | m3
        · exact absurd e0 (by decide)
        · exact hrec m3

theorem pySplit_zero_childBytes (cd : Codec) (cs : List (Bool × List Nat))
    (hv : ∀ c ∈ cs, ValidChild cd c) :
    pySplit 0 (childBytes cs) = fieldsOf cs ++ [[]] := by
  induction cs with
  | nil => rfl
  | cons c cs ih =>
    obtain ⟨b, n⟩ := c
    obtain ⟨hne, h0, _, _⟩ := hv (b, n) (by simp)
    have hrec := ih (fun c' hc' => hv c' (by simp [hc']))
    have hx : pySplit 0 (n ++ 0 :: childBytes cs) = n :: (fieldsOf cs ++ [[]]) := by
      rw [pySplit_append, pySplit_sepFree 0 n h0, hrec]
      simp
    cases b
    · have hcb : childBytes ((false, n) :: cs) = 1 :: (n ++ 0 :: childBytes cs) := by
        simp [childBytes]
      rw [hcb]
      simp only [pySplit, hx]
      simp [fieldsOf]
    · have hcb : childBytes ((true, n) :: cs) = 0 :: (n ++ 0 :: childBytes cs) := by
        simp [childBytes]
      rw [hcb]
      simp only [pySplit, hx]
      simp [fieldsOf]

theorem parseFragment_enc (cd : Codec) (d : DirSpec) (h : ValidDir cd d) :
    parseFragment cd (entryContent d) = .ok (decodedEntry cd d) := by
  obtain ⟨h1, h2, h3, hp0, hp2, hpok, hch⟩ := h
  have hsplit : pySplit 0 ((entryContent d).drop 16) =
      d.path :: (fieldsOf d.children ++ [[]]) := by
    rw [entryContent_drop16 d h1 h2 h3, pySplit_append, pySplit_sepFree 0 d.path hp0,
      pySplit_zero_childBytes cd d.children hch]
    simp
  have hdl : (pySplit 0 ((entryContent d).drop 16)).dropLast =
      d.path :: fieldsOf d.children := by
    rw [hsplit, show d.path :: (fieldsOf d.children ++ [[]]) =
      (d.path :: fieldsOf d.children) ++ [[]] by simp, List.dropLast_concat]
  simp only [parseFragment, hdl, entryContent_take8 d h1, entryContent_drop8_take4 d h1 h2,
    detect_ok_of_detectOkB cd d.path hpok, ok_bind,
    fieldsLoop_fieldsOf cd d.children hch]
  cases hres : resolvedCharset cd d.path <;> simp [decodedEntry, decodedStr, hres]

theorem fragsOf_length_ge (ds : List DirSpec) : ds.length ≤ (fragsOf ds).length := by
  induction ds with
  | nil => simp [fragsOf]
  | cons d ds ih =>
    have h1 : 1 ≤ (pySplit 2 (entryContent d)).length := by
      cases hsp : pySplit 2 (entryContent d) with
      | nil => exact absurd hsp (pySplit_ne_nil _ _)
      | cons g gs => simp
    simp only [fragsOf, List.length_append, List.length_cons]
    omega

theorem fastLoopF_fragsOf (cd : Codec) (ds : List DirSpec) :
    ∀ fuel, ValidDb cd ds → ds.length + 1 ≤ fuel →
    fastLoopF cd fuel (fragsOf ds) = .ok (ds.map (decodedEntry cd)) := by
  induction ds with
  | nil =>
    intro fuel _ hf
    cases fuel with
    | zero => omega
    | succ f => simp [fastLoopF, fragsOf]
  | cons d ds ih =>
    intro fuel hv hf
    cases fuel with
    | zero => omega
    | succ f =>
      obtain ⟨h1, h2, h3, hp0, hp2, hpok, hch⟩ := hv d (by simp)
      cases hsp : pySplit 2 (entryContent d) with
      | nil => exact absurd hsp (pySplit_ne_nil _ _)
      | cons g gs =>
        have ht : (2 : Nat) ∉ (entryContent d).drop 16 := by
          rw [entryContent_drop16 d h1 h2 h3]
          intro hm
          rcases List.mem_append.mp hm with m1 | m2
          · exact hp2 m1
          · rcases List.mem_cons.mp m2 with e0 | m3
            · exact absurd e0 (by decide)
            · exact two_not_mem_childBytes cd d.children hch m3
        have hre := reassemble_group (entryContent d) (fragsOf ds) g gs
          (entryContent_len d h1 h2 h3) ht hsp
        have hfr : fragsOf (d :: ds) = g :: (gs ++ fragsOf ds) := by
          simp [fragsOf, hsp]
        rw [hfr]
        simp only [fastLoopF, hre, ok_bind,
          parseFragment_enc cd d ⟨h1, h2, h3, hp0, hp2, hpok, hch⟩]
        rw [ih f (fun d' hd' => hv d' (by simp [hd']))
          (by simp only [List.length_cons] at hf; omega)]
        simp

theorem pySplit_encodeDb (ds : List DirSpec) :
    pySplit 2 (encodeDb ds) = fragsOf ds ++ [[]] := by
  induction ds with
  | nil => rfl
  | cons d ds ih =>
    have he : encodeDb (d :: ds) = entryContent d ++ 2 :: encodeDb ds := by
      simp [encodeDb, encodeEntry, List.append_assoc]
    rw [he, pySplit_append, ih]
    simp [fragsOf, List.append_assoc]

theorem fast_reader_encodeDb (cd : Codec) (ds : List DirSpec) (hv : ValidDb cd ds) :
    fast_reader cd (encodeDb ds) = .ok (ds.map (decodedEntry cd)) := by
  simp only [fast_reader, pySplit_encodeDb, List.dropLast_concat]
  apply fastLoopF_fragsOf cd ds _ hv
  have := fragsOf_length_ge ds
  omega

/-! ### Configuration-loop and header lemmas -/

theorem configLoopF_stops_at_or_past (cd : Codec) (cb : Int) :
    ∀ (fuel : Nat) (l0 : Nat) (s : List Nat) (cfg : List String) (l : Nat) (rest : List Nat),
    configLoopF cd fuel cb l0 s = .ok (cfg, l, rest) → cb ≤ (l : Int) := by
  intro fuel
  induction fuel with
  | zero =>
    intro l0 s cfg l rest h
    simp [configLoopF] at h
  | succ f ih =>
    intro l0 s cfg l rest h
    simp only [configLoopF] at h
    by_cases hc : (l0 : Int) < cb
    · rw [if_pos hc] at h
      cases hz : zts_list cd s with
      | error e =>
        rw [hz] at h
        simp at h
      | ok v =>
        obtain ⟨cfg1, ll, r⟩ := v
        rw [hz] at h
        simp only [ok_bind] at h
        cases hcl : configLoopF cd f cb (l0 + ll) r with
        | error e =>
          rw [hcl] at h
          simp at h
        | ok w =>
          obtain ⟨cfgs, l2, r2⟩ := w
          rw [hcl] at h
          simp only [ok_bind, pure_eq_ok, Except.ok.injEq, Prod.mk.injEq] at h
          obtain ⟨-, hl2, -⟩ := h
          exact hl2 ▸ ih _ _ _ _ _ hcl
    · rw [if_neg hc] at h
      simp only [Except.ok.injEq, Prod.mk.injEq] at h
      obtain ⟨-, hl, -⟩ := h
      rw [← hl]
      exact Int.not_lt.mp hc

/-! ### Claim theorems -/

/-- C1: For every valid database byte stream in which the byte 0x02 does
not occur inside any directory path or child filename (serialized here by
`encodeDb` from a well-formed `ValidDb` description), the sequential
strategy (`read_content_entry` driven to end-of-file) and the bulk
strategy (`fast_reader`) produce identical sequences of directory
entries: both return exactly the decoded entries, with the same order,
dirname, time_1, time_2 and sub-entry list. -/
theorem c1_sequential_bulk_agree (cd : Codec) (ds : List DirSpec) (hv : ValidDb cd ds) :
    sequential_reader cd (encodeDb ds) = .ok (ds.map (decodedEntry cd)) ∧
    fast_reader cd (encodeDb ds) = .ok (ds.map (decodedEntry cd)) :=
  ⟨sequential_reader_encodeDb cd ds hv, fast_reader_encodeDb cd ds hv⟩

theorem c1_witness :
    sequential_reader cd0 (encodeDb [c1spec]) = .ok ([c1spec].map (decodedEntry cd0)) ∧
    fast_reader cd0 (encodeDb [c1spec]) = .ok ([c1spec].map (decodedEntry cd0)) :=
  c1_sequential_bulk_agree cd0 [c1spec] (by decide)

/-- C2: On the hand-built minimal database (magic, cblocksize 1, one empty
configuration list, root "/", one entry for "/tmp" at time (0, 0) with
file child "a.txt" then subdirectory child "sub"), `open_locate_db`
returns, in both modes, exactly one entry with dirname "/tmp", time_1 = 0,
time_2 = 0 and subentries [file "a.txt", subdir "sub"], for every codec. -/
theorem c2_minimal_db_end_to_end (cd : Codec) :
    open_locate_db cd c2stream false = .ok [c2entry] ∧
    open_locate_db cd c2stream true = .ok [c2entry] :=
  ⟨rfl, rfl⟩

/-- C3 counterexample: `c3stream` declares cblocksize 1 but its single
configuration list occupies 3 bytes; the overrunning read does not raise
any error: the loader silently returns the directory entry that follows. -/
theorem c3_counterexample :
    zts_list cd0 [97, 0, 0] = .ok (["a"], 3, []) ∧
    open_locate_db cd0 c3stream false = .ok [⟨"/tmp", [], 0, 0⟩] :=
  ⟨rfl, rfl⟩

/-- C3 (amended): configuration-block consumption stops at the first
accumulated byte total that reaches or exceeds cblocksize; a read that
overruns cblocksize is not detected: the loop simply exits with the
cursor where the overrunning read left it, raising no error. -/
theorem c3_config_stops_at_or_past_cblocksize (cd : Codec) (fuel : Nat) (cb : Int)
    (l0 : Nat) (s : List Nat) (cfg : List String) (l : Nat) (rest : List Nat)
    (h : configLoopF cd fuel cb l0 s = .ok (cfg, l, rest)) : cb ≤ (l : Int) :=
  configLoopF_stops_at_or_past cd cb fuel l0 s cfg l rest h

theorem c3_witness : (1 : Int) ≤ ((1 : Nat) : Int) :=
  c3_config_stops_at_or_past_cblocksize cd0 2 1 0 [0] [] 1 [] rfl

/-- C4 counterexample: with the most significant bit of byte 8 set, the
loader reads cblocksize as the negative signed value -2^31, not the
unsigned big-endian value 2^31 the claim asserts. -/
theorem c4_counterexample :
    headerCblock (magicBytes ++ [128, 0, 0, 0]) = .ok (-2147483648, []) ∧
    beNat [128, 0, 0, 0] = 2147483648 ∧ ((-2147483648 : Int) ≠ (2147483648 : Int)) :=
  ⟨rfl, rfl, by decide⟩

/-- C4 (amended): the configuration-block length field (bytes 8..11) is
interpreted as a signed 32-bit big-endian integer (`unpack(">i")`); it
coincides with the unsigned big-endian reading exactly when the most
significant bit of byte 8 is clear. -/
theorem c4_cblocksize_signed (b0 b1 b2 b3 : Nat) (t : List Nat)
    (h0 : b0 < 256) (h1 : b1 < 256) (h2 : b2 < 256) (h3 : b3 < 256) :
    headerCblock (magicBytes ++ b0 :: b1 :: b2 :: b3 :: t) =
      .ok (int32be [b0, b1, b2, b3], t) ∧
    (b0 < 128 → int32be [b0, b1, b2, b3] = (beNat [b0, b1, b2, b3] : Int)) := by
  constructor
  · have hm : magicBytes ++ b0 :: b1 :: b2 :: b3 :: t =
        magicBytes ++ ([b0, b1, b2, b3] ++ t) := by simp
    rw [hm]
    simp only [headerCblock,
      readBytes_append magicBytes ([b0, b1, b2, b3] ++ t) (show magicBytes.length = 8 from rfl),
      ok_bind]
    rw [if_pos trivial]
    simp only [readBytes_append [b0, b1, b2, b3] t
      (show ([b0, b1, b2, b3] : List Nat).length = 4 from rfl), ok_bind, pure_eq_ok]
  · intro hb
    have hlt : beNat [b0, b1, b2, b3] < 2 ^ 31 := by
      have h31 : (2 : Nat) ^ 31 = 2147483648 := by norm_num
      simp only [beNat, List.foldl_cons, List.foldl_nil, h31]
      omega
    simp only [int32be, if_pos hlt]

theorem c4_witness :
    (headerCblock (magicBytes ++ 0 :: 0 :: 0 :: 5 :: []) =
      .ok (int32be [0, 0, 0, 5], []) ∧
    (0 < 128 → int32be [0, 0, 0, 5] = (beNat [0, 0, 0, 5] : Int))) :=
  c4_cblocksize_signed 0 0 0 5 [] (by decide) (by decide) (by decide) (by decide)

/-- C5: for every input whose first 8 bytes differ from the fixed magic
sequence, `open_locate_db` fails immediately (with the `sys.exit(1)`
abort the source raises after printing), whatever bytes follow and in
both modes, returning no partial result. -/
theorem c5_magic_mismatch_aborts (cd : Codec) (fast : Bool) (m t : List Nat)
    (h8 : m.length = 8) (hm : ¬(m = magicBytes)) :
    open_locate_db cd (m ++ t) fast = .error (.sysExit 1) := by
  simp only [open_locate_db, headerCblock, readBytes_append m t h8, ok_bind,
    if_neg hm, error_bind]

theorem c5_witness :
    open_locate_db cd0 ([1, 109, 108, 111, 99, 97, 116, 101] ++ []) false =
      .error (.sysExit 1) :=
  c5_magic_mismatch_aborts cd0 false [1, 109, 108, 111, 99, 97, 116, 101] []
    (by decide) (by decide)

/-- C6 counterexample: in `c6stream` the only 0x02 collision sits inside
the filename `a\x02b`, leaving a short (2-byte) trailing fragment; the
bulk strategy does not reconstruct the sequential strategy entry: it
fails with an IndexError while the sequential strategy succeeds. -/
theorem c6_counterexample :
    sequential_reader cd0 c6stream = .ok [c6entry] ∧
    fast_reader cd0 c6stream = .error .indexError :=
  ⟨rfl, rfl⟩

/-- C6 (amended): whenever a fragment is shorter than 16 bytes the bulk
strategy joins it with the next fragment, re-inserting the single 0x02
byte the split removed, and repeats until 16 bytes are accumulated; only
then is the fragment parsed. This recovers collisions lying inside the
16-byte timestamp/padding header, whose left fragments stay below 16
bytes (e.g. `c6good`, whose seconds field contains 0x02: both strategies
agree there); a collision inside a path or child filename sits at
fragment offset 16 or beyond, so the fragment before it passes the
16-byte check and is parsed truncated, diverging from the sequential
strategy. -/
theorem c6_reassembly_guard :
    (∀ (dt f : List Nat) (fs : List (List Nat)), dt.length < 16 →
      reassemble (f :: fs) dt = reassemble fs (dt ++ 2 :: f)) ∧
    (∀ (dt : List Nat) (fs : List (List Nat)), 16 ≤ dt.length →
      reassemble fs dt = .ok (dt, fs)) ∧
    sequential_reader cd0 c6good = fast_reader cd0 c6good ∧
    fast_reader cd0 c6good =
      .ok [⟨"/tmp", [⟨"file", some "a.txt", some "UTF-8"⟩], 2, 0⟩] :=
  ⟨fun dt f fs h => reassemble_short_cons f fs dt h,
   fun dt fs h => reassemble_long fs dt h, rfl, rfl⟩

theorem c6_witness :
    reassemble [[97]] [1, 2, 3] = reassemble [] ([1, 2, 3] ++ 2 :: [97]) :=
  c6_reassembly_guard.1 [1, 2, 3] [97] [] (by decide)

/-- C9: the claim that `detect_encoding` never raises for any byte
sequence, regardless of whether the statistical detector is available, is
contradicted by the code: with `chardet` unavailable, a byte sequence that
is valid in neither strict UTF-8 nor strict windows-1252 (for example the
single byte 0x81) reaches the `chardet.detect` call and raises NameError. -/
theorem c9_detect_encoding_raises :
    utf8Valid [129] = false ∧ cp1252Valid [129] = false ∧
    detect_encoding cdNo [129] = .error .nameError :=
  ⟨rfl, rfl, rfl⟩

/-- C7 helper: with the statistical detector available, `detect_encoding`
never raises, so `detectOkB` holds. -/
theorem detectOkB_of_avail (cd : Codec) (b : List Nat) (hav : cd.chardetAvail = true) :
    detectOkB cd b = true := by
  simp [detectOkB, detect_ok_of_avail cd b hav]

theorem zts_avail (cd : Codec) (q r : List Nat) (h0 : 0 ∉ q) (hav : cd.chardetAvail = true) :
    zts cd (q ++ 0 :: r) = .ok (ztsResOf cd q, r) :=
  zts_append cd q r h0 (detectOkB_of_avail cd q hav)

theorem encTermList_length (ps : List (List Nat)) :
    (encTermList ps).length = (ps.map List.length).sum + ps.length + 1 := by
  induction ps with
  | nil => rfl
  | cons p ps ih =>
    simp only [encTermList, List.length_append, List.length_cons, ih, List.map_cons,
      List.sum_cons]
    omega

theorem ztsListLoopF_enc (cd : Codec) (hav : cd.chardetAvail = true) (ps : List (List Nat)) :
    ∀ (fuel : Nat) (extra : List Nat),
    (∀ p ∈ ps, ∃ c q, p = c :: q ∧ ¬(c = 0) ∧ c ≤ 127 ∧ 0 ∉ q) →
    ps.length + 1 ≤ fuel →
    ∃ lst, ztsListLoopF cd fuel (encTermList ps ++ extra) =
      .ok (lst, (ps.map List.length).sum + ps.length + 1, extra) := by
  induction ps with
  | nil =>
    intro fuel extra _ hf
    cases fuel with
    | zero => omega
    | succ f =>
      refine ⟨[], ?_⟩
      simp [ztsListLoopF, encTermList]
  | cons p ps ih =>
    intro fuel extra hp hf
    cases fuel with
    | zero => omega
    | succ f =>
      obtain ⟨c, q, hpq, hc0, hc127, h0q⟩ := hp p (by simp)
      obtain ⟨lst2, hrec⟩ := ih f extra (fun p' hp' => hp p' (by simp [hp']))
        (by simp only [List.length_cons] at hf; omega)
      have hs : encTermList (p :: ps) ++ extra =
          c :: (q ++ 0 :: (encTermList ps ++ extra)) := by
        rw [hpq]
        simp [encTermList, List.append_assoc]
      refine ⟨(String.mk [Char.ofNat c] ++ (ztsResOf cd q).idx0) :: lst2, ?_⟩
      rw [hs]
      simp only [ztsListLoopF, if_neg hc0, zts_avail cd q _ h0q hav, ok_bind,
        byteDecodeUtf8, if_pos hc127, hrec, pure_eq_ok, Except.ok.injEq, Prod.mk.injEq]
      refine ⟨trivial, ?_, trivial⟩
      rw [ztsResOf_idx1, hpq]
      simp only [List.map_cons, List.sum_cons, List.length_cons]
      omega

/-! ### No sub-entry of a result carries the sentinel tag -/

theorem mkSub_entry_type (cd : Codec) (st : String) (n : List Nat) (e : LocateDBSubEntry)
    (h : mkSub cd st n = .ok e) : e.entry_type = st := by
  simp only [mkSub] at h
  cases hd : detect_encoding cd n with
  | error ee =>
    rw [hd] at h
    simp at h
  | ok o =>
    rw [hd] at h
    simp only [ok_bind] at h
    cases o with
    | none =>
      simp only [pure_eq_ok, Except.ok.injEq] at h
      simp [← h]
    | some ch =>
      simp only [pure_eq_ok, Except.ok.injEq] at h
      simp [← h]

theorem fieldsLoop_no_dirterm (cd : Codec) :
    ∀ (k : Nat) (fields : List (List Nat)) (es : List LocateDBSubEntry),
    fields.length ≤ k → fieldsLoop cd fields = .ok es →
    ∀ e ∈ es, ¬(e.entry_type = "dirterm") := by
  intro k
  induction k with
  | zero =>
    intro fields es hl h e he
    have hf : fields = [] := List.length_eq_zero.mp (Nat.le_zero.mp hl)
    subst hf
    rw [fieldsLoop.eq_def] at h
    simp at h
    subst h
    simp at he
  | succ m ih =>
    intro fields es hl h e he
    cases fields with
    | nil =>
      rw [fieldsLoop.eq_def] at h
      simp at h
      subst h
      simp at he
    | cons f fs =>
      by_cases hf : f = []
      · subst hf
        cases fs with
        | nil =>
          rw [fieldsLoop.eq_def] at h
          simp at h
        | cons name fs2 =>
          rw [fieldsLoop_nil_cons] at h
          cases hmk : mkSub cd "file" name with
          | error ee =>
            rw [hmk] at h
            simp at h
          | ok e1 =>
            rw [hmk] at h
            simp only [ok_bind] at h
            cases hfl : fieldsLoop cd fs2 with
            | error ee =>
              rw [hfl] at h
              simp at h
            | ok es2 =>
              rw [hfl] at h
              simp only [ok_bind, pure_eq_ok, Except.ok.injEq] at h
              subst h
              rcases List.mem_cons.mp he with rfl | hm
              · rw [mkSub_entry_type cd "file" name e hmk]
                simp
              · exact ih fs2 es2 (by simp only [List.length_cons] at hl; omega) hfl e hm
      · rw [fieldsLoop_cons_ne cd f fs hf] at h
        cases hmk : mkSub cd "subdir" f.tail with
        | error ee =>
          rw [hmk] at h
          simp at h
        | ok e1 =>
          rw [hmk] at h
          simp only [ok_bind] at h
          cases hfl : fieldsLoop cd fs with
          | error ee =>
            rw [hfl] at h
            simp at h
          | ok es2 =>
            rw [hfl] at h
            simp only [ok_bind, pure_eq_ok, Except.ok.injEq] at h
            subst h
            rcases List.mem_cons.mp he with rfl | hm
            · rw [mkSub_entry_type cd "subdir" f.tail e hmk]
              simp
            · exact ih fs es2 (by simp only [List.length_cons] at hl; omega) hfl e hm

theorem parseFragment_no_dirterm (cd : Codec) (dt : List Nat) (entry : LocateDBEntry)
    (h : parseFragment cd dt = .ok entry) :
    ∀ sub ∈ entry.subentries, ¬(sub.entry_type = "dirterm") := by
  simp only [parseFragment] at h
  cases hfs : (pySplit 0 (dt.drop 16)).dropLast with
  | nil =>
    rw [hfs] at h
    simp at h
  | cons bpname fields =>
    rw [hfs] at h
    simp only [] at h
    cases hd : detect_encoding cd bpname with
    | error ee =>
      rw [hd] at h
      simp at h
    | ok o =>
      rw [hd] at h
      simp only [ok_bind] at h
      cases hfl : fieldsLoop cd fields with
      | error ee =>
        rw [hfl] at h
        simp at h
      | ok subs =>
        rw [hfl] at h
        simp only [ok_bind, pure_eq_ok, Except.ok.injEq] at h
        intro sub hsub
        have hsubs : entry.subentries = subs := by rw [← h]
        rw [hsubs] at hsub
        exact fieldsLoop_no_dirterm cd fields.length fields subs le_rfl hfl sub hsub

theorem contentLoopF_no_dirterm (cd : Codec) :
    ∀ (fuel : Nat) (s : List Nat) (es : List LocateDBSubEntry) (r : List Nat),
    contentLoopF cd fuel s = .ok (es, r) → ∀ e ∈ es, ¬(e.entry_type = "dirterm") := by
  intro fuel
  induction fuel with
  | zero =>
    intro s es r h
    simp [contentLoopF] at h
  | succ f ih =>
    intro s es r h e he
    simp only [contentLoopF] at h
    cases hre : read_file_entry cd s with
    | error ee =>
      rw [hre] at h
      simp at h
    | ok v =>
      obtain ⟨e1, r1⟩ := v
      rw [hre] at h
      simp only [ok_bind] at h
      by_cases ht : e1.entry_type = "dirterm"
      · rw [if_pos ht] at h
        simp only [pure_eq_ok, Except.ok.injEq, Prod.mk.injEq] at h
        obtain ⟨h1, -⟩ := h
        rw [← h1] at he
        simp at he
      · rw [if_neg ht] at h
        cases hcl : contentLoopF cd f r1 with
        | error ee =>
          rw [hcl] at h
          simp at h
        | ok w =>
          obtain ⟨es2, r2⟩ := w
          rw [hcl] at h
          simp only [ok_bind, pure_eq_ok, Except.ok.injEq, Prod.mk.injEq] at h
          obtain ⟨h1, -⟩ := h
          rw [← h1] at he
          rcases List.mem_cons.mp he with rfl | hm
          · exact ht
          · exact ih r1 es2 r2 hcl e hm

theorem read_content_entry_no_dirterm (cd : Codec) (s : List Nat) (entry : LocateDBEntry)
    (r : List Nat) (h : read_content_entry cd s = .ok (entry, r)) :
    ∀ sub ∈ entry.subentries, ¬(sub.entry_type = "dirterm") := by
  simp only [read_content_entry] at h
  cases h1 : readBytes 8 s with
  | error ee =>
    rw [h1] at h
    simp at h
  | ok v1 =>
    obtain ⟨t1b, s1⟩ := v1
    rw [h1] at h
    simp only [ok_bind] at h
    cases h2 : readBytes 4 s1 with
    | error ee =>
      rw [h2] at h
      simp at h
    | ok v2 =>
      obtain ⟨t2b, s2⟩ := v2
      rw [h2] at h
      simp only [ok_bind] at h
      cases h3 : readBytes 4 s2 with
      | error ee =>
        rw [h3] at h
        simp at h
      | ok v3 =>
        obtain ⟨padb, s3⟩ := v3
        rw [h3] at h
        simp only [ok_bind] at h
        cases h4 : zts cd s3 with
        | error ee =>
          rw [h4] at h
          simp at h
        | ok v4 =>
          obtain ⟨pres, s4⟩ := v4
          rw [h4] at h
          simp only [ok_bind] at h
          cases h5 : contentLoopF cd (s4.length + 1) s4 with
          | error ee =>
            rw [h5] at h
            simp at h
          | ok v5 =>
            obtain ⟨pcontents, s5⟩ := v5
            rw [h5] at h
            simp only [ok_bind, pure_eq_ok, Except.ok.injEq, Prod.mk.injEq] at h
            obtain ⟨he, -⟩ := h
            intro sub hsub
            have hpc : entry.subentries = pcontents := by rw [← he]
            rw [hpc] at hsub
            exact contentLoopF_no_dirterm cd _ s4 pcontents s5 h5 sub hsub

theorem seqLoopF_no_dirterm (cd : Codec) :
    ∀ (fuel : Nat) (s : List Nat) (es : List LocateDBEntry),
    seqLoopF cd fuel s = .ok es →
    ∀ entry ∈ es, ∀ sub ∈ entry.subentries, ¬(sub.entry_type = "dirterm") := by
  intro fuel
  induction fuel with
  | zero =>
    intro s es h
    simp [seqLoopF] at h
  | succ f ih =>
    intro s es h entry hentry
    simp only [seqLoopF] at h
    by_cases hs : s = []
    · rw [if_pos hs] at h
      simp only [Except.ok.injEq] at h
      rw [← h] at hentry
      simp at hentry
    · rw [if_neg hs] at h
      cases hre : read_content_entry cd s with
      | error ee =>
        rw [hre] at h
        simp at h
      | ok v =>
        obtain ⟨e1, r1⟩ := v
        rw [hre] at h
        simp only [ok_bind] at h
        cases hsl : seqLoopF cd f r1 with
        | error ee =>
          rw [hsl] at h
          simp at h
        | ok es2 =>
          rw [hsl] at h
          simp only [ok_bind, pure_eq_ok, Except.ok.injEq] at h
          rw [← h] at hentry
          rcases List.mem_cons.mp hentry with rfl | hm
          · exact read_content_entry_no_dirterm cd s entry r1 hre
          · exact ih r1 es2 hsl entry hm

theorem fastLoopF_no_dirterm (cd : Codec) :
    ∀ (fuel : Nat) (frags : List (List Nat)) (es : List LocateDBEntry),
    fastLoopF cd fuel frags = .ok es →
    ∀ entry ∈ es, ∀ sub ∈ entry.subentries, ¬(sub.entry_type = "dirterm") := by
  intro fuel
  induction fuel with
  | zero =>
    intro frags es h
    simp [fastLoopF] at h
  | succ f ih =>
    intro frags es h entry hentry
    cases frags with
    | nil =>
      simp only [fastLoopF, Except.ok.injEq] at h
      rw [← h] at hentry
      simp at hentry
    | cons dt rest =>
      simp only [fastLoopF] at h
      cases hra : reassemble rest dt with
      | error ee =>
        rw [hra] at h
        simp at h
      | ok v =>
        obtain ⟨dt2, rest2⟩ := v
        rw [hra] at h
        simp only [ok_bind] at h
        cases hpf : parseFragment cd dt2 with
        | error ee =>
          rw [hpf] at h
          simp at h
        | ok e1 =>
          rw [hpf] at h
          simp only [ok_bind] at h
          cases hfl : fastLoopF cd f rest2 with
          | error ee =>
            rw [hfl] at h
            simp at h
          | ok es2 =>
            rw [hfl] at h
            simp only [ok_bind, pure_eq_ok, Except.ok.injEq] at h
            rw [← h] at hentry
            rcases List.mem_cons.mp hentry with rfl | hm
            · exact parseFragment_no_dirterm cd dt2 entry hpf
            · exact ih rest2 es2 hfl entry hm

/-- C7 counterexample: the stream [200, 97, 0, 0, 5] encodes a list of one
terminated string with the 2-byte payload [200, 97] followed by the outer
NUL (and 2 trailing bytes of further input), yet `zts_list` returns no
byte count at all: the leading byte 200 is consumed as the discriminator
and `c.decode("UTF-8")` on a lone byte above 0x7F raises
UnicodeDecodeError (source line 138), even with the statistical detector
available. -/
theorem c7_counterexample :
    encTermList [[200, 97]] ++ [5] = [200, 97, 0, 0, 5] ∧
    zts_list cd0 [200, 97, 0, 0, 5] = .error .unicodeError :=
  ⟨rfl, rfl⟩

/-- C7 (amended): for every stream encoding a list of terminated strings
with payload byte lengths s_1..s_n followed by the outer NUL, in which
each string starts with a non-NUL ASCII byte below 0x80 (the leading byte
of every entry is consumed as a discriminator and decoded with strict
UTF-8, so an entry starting with a byte of 0x80 or above raises
UnicodeDecodeError instead of returning a count), and with the
statistical detector available (so the per-string charset step cannot
raise), `zts_list` returns a byte count equal to the payload total plus
one terminator per inner string plus one for the outer terminator, which
is exactly the number of bytes read (the encoded region's length); the
immediately terminated empty list is the n = 0 instance, with count 1. -/
theorem c7_zts_list_byte_count (cd : Codec) (ps : List (List Nat)) (extra : List Nat)
    (hav : cd.chardetAvail = true)
    (hp : ∀ p ∈ ps, ∃ c q, p = c :: q ∧ ¬(c = 0) ∧ c ≤ 127 ∧ 0 ∉ q) :
    (∃ lst, zts_list cd (encTermList ps ++ extra) =
      .ok (lst, (ps.map List.length).sum + ps.length + 1, extra)) ∧
    (ps.map List.length).sum + ps.length + 1 = (encTermList ps).length := by
  constructor
  · simp only [zts_list]
    refine ztsListLoopF_enc cd hav ps _ extra hp ?_
    have hlen := encTermList_length ps
    simp only [List.length_append]
    omega
  · exact (encTermList_length ps).symm

theorem c7_witness :
    (∃ lst, zts_list cd0 (encTermList [[97]] ++ [5]) =
      .ok (lst, (([[97]] : List (List Nat)).map List.length).sum +
        ([[97]] : List (List Nat)).length + 1, [5])) ∧
    (([[97]] : List (List Nat)).map List.length).sum +
        ([[97]] : List (List Nat)).length + 1 = (encTermList [[97]]).length :=
  c7_zts_list_byte_count cd0 [[97]] [5] rfl (by
    intro p hp
    simp only [List.mem_singleton] at hp
    exact ⟨97, [], by simp [hp], by decide, by decide, by simp⟩)

/-- C8: no directory entry returned by either parsing strategy carries a
sub-entry tagged "dirterm": the sentinel is consumed during parsing and
never appears in any returned subentries sequence. -/
theorem c8_no_dirterm_in_results (cd : Codec) (s : List Nat) (es : List LocateDBEntry)
    (h : sequential_reader cd s = .ok es ∨ fast_reader cd s = .ok es) :
    ∀ entry ∈ es, ∀ sub ∈ entry.subentries, ¬(sub.entry_type = "dirterm") := by
  rcases h with h | h
  · exact seqLoopF_no_dirterm cd _ s es h
  · simp only [fast_reader] at h
    exact fastLoopF_no_dirterm cd _ _ es h

theorem c8_witness :
    ¬((⟨"file", some "a.txt", some "UTF-8"⟩ : LocateDBSubEntry).entry_type = "dirterm") :=
  c8_no_dirterm_in_results cd0 c6good
    [⟨"/tmp", [⟨"file", some "a.txt", some "UTF-8"⟩], 2, 0⟩]
    (Or.inl rfl)
    ⟨"/tmp", [⟨"file", some "a.txt", some "UTF-8"⟩], 2, 0⟩ (by simp)
    ⟨"file", some "a.txt", some "UTF-8"⟩ (by simp)

/-- C10: whenever the next child record has discriminator 0x00 or 0x01
and its name is empty or resolves to no encoding, `zts` returns a 2-tuple
without the charset element, `read_file_entry` reads tuple index 2 and
fails with an IndexError, and a sequential load of a database whose entry
contains such a child aborts with that IndexError. -/
theorem c10_two_tuple_index_error (cd : Codec) (t : Nat) (name rest a b c path : List Nat)
    (ht : t = 0 ∨ t = 1) (h0 : 0 ∉ name)
    (hres : name = [] ∨ detect_encoding cd name = .ok none)
    (ha : a.length = 8) (hb : b.length = 4) (hc : c.length = 4)
    (hp0 : 0 ∉ path) (hpok : detectOkB cd path = true) :
    read_file_entry cd (t :: (name ++ 0 :: rest)) = .error .indexError ∧
    sequential_reader cd (a ++ (b ++ (c ++ (path ++ 0 :: (t :: (name ++ 0 :: rest)))))) =
      .error .indexError := by
  have hzts : ∃ txt cnt, zts cd (name ++ 0 :: rest) = .ok (.two txt cnt, rest) := by
    rcases hres with rfl | hd
    · exact ⟨"", 1, by rw [List.nil_append]; exact zts_cons_nul cd rest⟩
    · by_cases hn : name = []
      · subst hn
        exact ⟨"", 1, by rw [List.nil_append]; exact zts_cons_nul cd rest⟩
      · refine ⟨cd.strRepr name, name.length + 1, ?_⟩
        have hok : detectOkB cd name = true := by simp [detectOkB, hd]
        rw [zts_append cd name rest h0 hok]
        simp [ztsResOf, hn, resolvedCharset, hd]
  obtain ⟨txt, cnt, hz⟩ := hzts
  have hfe : read_file_entry cd (t :: (name ++ 0 :: rest)) = .error .indexError := by
    rcases ht with rfl | rfl
    · simp [read_file_entry, readByte, hz, ZtsRes.idx2]
    · simp [read_file_entry, readByte, hz, ZtsRes.idx2]
  refine ⟨hfe, ?_⟩
  have hrce : read_content_entry cd
      (a ++ (b ++ (c ++ (path ++ 0 :: (t :: (name ++ 0 :: rest)))))) =
      .error .indexError := by
    simp only [read_content_entry, readBytes_append a _ ha, ok_bind,
      readBytes_append b _ hb, readBytes_append c _ hc,
      zts_append cd path _ hp0 hpok]
    simp only [contentLoopF, hfe, error_bind]
  have hne : ¬(a ++ (b ++ (c ++ (path ++ 0 :: (t :: (name ++ 0 :: rest))))) = []) := by
    intro he
    have hlen := congrArg List.length he
    simp only [List.length_append, List.length_cons, List.length_nil, ha] at hlen
    omega
  simp only [sequential_reader, seqLoopF, if_neg hne, hrce, error_bind]

theorem c10_witness :
    read_file_entry cd0 (0 :: ([] ++ 0 :: [])) = .error .indexError ∧
    sequential_reader cd0 ([0, 0, 0, 0, 0, 0, 0, 0] ++ ([0, 0, 0, 0] ++ ([0, 0, 0, 0] ++
      ([] ++ 0 :: (0 :: ([] ++ 0 :: [])))))) = .error .indexError :=
  c10_two_tuple_index_error cd0 0 [] [] [0, 0, 0, 0, 0, 0, 0, 0] [0, 0, 0, 0] [0, 0, 0, 0] []
    (Or.inl rfl) (by simp) (Or.inl rfl) rfl rfl rfl (by simp) rfl


end Pymlocate
